import Mathlib

/-!
Verification development for the b-logger work-log tracker (`src/b_logger.py`).

The temporal aggregation and reporting core is shallowly embedded:

* strings are `List Char` wrapped into `String` at the API boundary; Python's
  `str.lower`, `str.strip`, `str.replace('hours','')`, `str.split('h')[0]`,
  `str.split('h')[-1]`, `str.isdigit` and `int(...)` are modelled by
  executable list functions below (Python `int(...)` digit-group underscores
  are not modelled; no analysed behaviour involves them);
* calendar dates are modelled by their day number (days since 1970-01-01,
  Gregorian); `datetime.now()` is an instant `(nowDay, nowSec)` made of a day
  number and a number of seconds since midnight, since the code compares
  midnight-parsed log dates against `datetime.now() - timedelta(days=13)`;
* Python `//` on ints and `timedelta.days` are floor division (`Int.fdiv`),
  Python `%` with a positive modulus is `Int.emod`, and Python
  `int(float)` truncation toward zero on an exact ratio is `Int.div`
  (float division in the chart scaling is modelled as exact division).
-/

/-- Python whitespace test used by `str.strip` / `str.split()` (ASCII range). -/
def pySpace (c : Char) : Bool := c.isWhitespace

/-- Python `str.strip()` on a character list. -/
def trimL (l : List Char) : List Char :=
  ((l.dropWhile pySpace).reverse.dropWhile pySpace).reverse

/-- Python `hours_str.replace('hours', '')`: removes every occurrence of the
substring `"hours"`, scanning left to right without overlap. -/
def stripHoursWord : List Char → List Char
  | 'h' :: 'o' :: 'u' :: 'r' :: 's' :: rest => stripHoursWord rest
  | c :: rest => c :: stripHoursWord rest
  | [] => []

/-- Python `minutes_part.split('h')[-1]`: the suffix after the last `'h'`. -/
def afterLastH (l : List Char) : List Char :=
  (l.reverse.takeWhile (fun c => c ≠ 'h')).reverse

/-- Python `str.isdigit()`: nonempty and all digits. -/
def isdigitL (l : List Char) : Bool :=
  !l.isEmpty && l.all Char.isDigit

/-- Decimal value of a digit list, most significant digit first. -/
def digitsToNat (l : List Char) : Nat :=
  l.foldl (fun a c => a * 10 + (c.toNat - 48)) 0

/-- Python `int(s)` on an already-stripped string: optional sign followed by a
nonempty run of decimal digits, `none` on `ValueError`. -/
def pyIntL? (l : List Char) : Option Int :=
  match l with
  | [] => none
  | c :: rest =>
    if c = '-' then if isdigitL rest then some (-(digitsToNat rest : Int)) else none
    else if c = '+' then if isdigitL rest then some ((digitsToNat rest : Int)) else none
    else if isdigitL (c :: rest) then some ((digitsToNat (c :: rest) : Int)) else none

/-- `BLogger.parse_hours` (src/b_logger.py lines 157-189) on a character
list: empty or `"ongoing"` parse to `0`; an `h`-component contributes
`60 * int(prefix before first 'h')`; a bare digit string is hours; an
`m`-component contributes `int(segment before first 'm', after its last 'h')`;
a failed `int(...)` contributes `0`. -/
def parseHoursL (s : List Char) : Int :=
  if s = [] ∨ s.map Char.toLower = "ongoing".data then 0
  else
    let hs := trimL (stripHoursWord (s.map Char.toLower))
    let fromHours : Int :=
      if hs.contains 'h' then
        match pyIntL? (trimL (hs.takeWhile (fun c => c ≠ 'h'))) with
        | some n => n * 60
        | none => 0
      else if isdigitL hs then
        match pyIntL? (trimL hs) with
        | some n => n * 60
        | none => 0
      else 0
    let fromMinutes : Int :=
      if hs.contains 'm' then
        let mp := hs.takeWhile (fun c => c ≠ 'm')
        let mp2 := if mp.contains 'h' then afterLastH mp else mp
        match pyIntL? (trimL mp2) with
        | some n => n
        | none => 0
      else 0
    fromHours + fromMinutes

/-- `BLogger.parse_hours` on a string. -/
def parseHours (s : String) : Int := parseHoursL s.data

/-- Decimal digit list of a natural number (fuel-based so that it reduces in
the kernel); `natDigits n` is `str(n)` for `n : Nat`. -/
def digitsAux : Nat → Nat → List Char
  | 0, _ => []
  | fuel + 1, n =>
    if n < 10 then [Nat.digitChar n]
    else digitsAux fuel (n / 10) ++ [Nat.digitChar (n % 10)]

/-- Python `str(n)` for a nonnegative integer. -/
def natDigits (n : Nat) : List Char := digitsAux (n + 1) n

/-- Python `str(i)` for an integer (f-string formatting of an int). -/
def intToStr (i : Int) : List Char :=
  if i < 0 then '-' :: natDigits i.natAbs else natDigits i.toNat

/-- `BLogger.format_hours` (src/b_logger.py lines 191-199) on a character
list: `0` maps to the empty string, otherwise `"{h}h"` when the minute
remainder is `0`, else `"{h}h {m}m"`, with Python floor `//` and `%`. -/
def formatHoursL (totalMinutes : Int) : List Char :=
  if totalMinutes = 0 then []
  else
    let hours := Int.fdiv totalMinutes 60
    let minutes := Int.emod totalMinutes 60
    if minutes = 0 then intToStr hours ++ ['h']
    else intToStr hours ++ ['h', ' '] ++ intToStr minutes ++ ['m']

/-- `BLogger.format_hours` on a string. -/
def formatHours (totalMinutes : Int) : String := ⟨formatHoursL totalMinutes⟩

/-- The decimal string of a natural number (used to state parser laws). -/
def natStr (n : Nat) : String := ⟨natDigits n⟩

/-- Day number of a Gregorian calendar date (days since 1970-01-01), the
standard civil-from-days algorithm; mirrors Python `datetime` date
arithmetic at day granularity. -/
def daysFromCivil (y m d : Int) : Int :=
  let y2 := y - (if m ≤ 2 then 1 else 0)
  let era := Int.fdiv y2 400
  let yoe := y2 - era * 400
  let mp := Int.emod (m + 9) 12
  let doy := Int.fdiv (153 * mp + 2) 5 + d - 1
  let doe := yoe * 365 + Int.fdiv yoe 4 - Int.fdiv yoe 100 + doy
  era * 146097 + doe - 719468

/-- Python `date.weekday()`: Monday = 0 … Sunday = 6 (1970-01-01, day 0, was
a Thursday, weekday 3). -/
def pyWeekday (d : Int) : Int := Int.emod (d + 3) 7

/-- Sprint configuration from settings: `start_date` as a day number and
`duration_weeks`. -/
structure SprintConfig where
  startDay : Int
  durationWeeks : Int
deriving DecidableEq, Repr

/-- A work-log entry. The date part of `timestamp` is modelled by its day
number; the time-of-day part of a log timestamp is display-only in the
source and is not modelled. -/
structure LogEntry where
  day : Int
  ticket : String
  hours : String
  q_status : String
  jira_status : String
  subtasks : List String
deriving DecidableEq, Repr

/-- `timedelta.days` for a difference of `deltaSeconds` seconds: Python
normalizes timedeltas so `.days` rounds toward minus infinity. -/
def timedeltaDays (deltaSeconds : Int) : Int := Int.fdiv deltaSeconds 86400

/-- The `sprint_number is None` branch of `BLogger.get_sprint_dates`
(src/b_logger.py lines 740-744): `(now - first_sprint_start).days //
sprint_duration`, where `now` is the instant `(nowDay, nowSec)` read from
`datetime.now()` and the sprint start is a midnight datetime. -/
def currentSprintNumber (cfg : SprintConfig) (nowDay nowSec : Int) : Int :=
  Int.fdiv (timedeltaDays (nowDay * 86400 + nowSec - cfg.startDay * 86400))
    (cfg.durationWeeks * 7)

/-- `BLogger.get_sprint_dates` (src/b_logger.py lines 734-750): start and end
day of the given sprint, or of the current sprint when `sprintNumber = none`. -/
def getSprintDates (cfg : SprintConfig) (sprintNumber : Option Int)
    (nowDay nowSec : Int) : Int × Int :=
  let dur := cfg.durationWeeks * 7
  let n := match sprintNumber with
    | none => currentSprintNumber cfg nowDay nowSec
    | some k => k
  (cfg.startDay + dur * n, cfg.startDay + dur * n + dur - 1)

/-- Python `min` over a list (0 for the empty list; only applied nonempty). -/
def pyMin (l : List Int) : Int :=
  match l with
  | [] => 0
  | x :: xs => xs.foldl min x

/-- Python `max` over a list (0 for the empty list; the source guards the
empty case to 0 itself at its `max(...)` call sites). -/
def pyMax (l : List Int) : Int :=
  match l with
  | [] => 0
  | x :: xs => xs.foldl max x

/-- Python `range(lo, hi + 1)` over integers, as a list. -/
def rangeInt (lo hi : Int) : List Int :=
  (List.range (hi + 1 - lo).toNat).map (fun (k : Nat) => lo + (k : Int))

/-- The hardcoded `datetime(2025, 4, 30)` of `view_sprint_history` (line 767). -/
def historyEpoch : Int := daysFromCivil 2025 4 30

/-- The sprint indices displayed by `BLogger.view_sprint_history`
(src/b_logger.py lines 752-806): enumerate
`range(-abs((earliest - epoch).days // 14), (latest - epoch).days // 14 + 1)`
with the hardcoded epoch and 14-day step, then keep a sprint when it has logs
inside its settings-derived date range or its end date is before `now`. -/
def viewSprintHistoryIndices (cfg : SprintConfig) (logs : List LogEntry)
    (nowDay nowSec : Int) : List Int :=
  if logs.isEmpty then []
  else
    let logDates := logs.map (fun l => l.day)
    let sprintsBack := |Int.fdiv (pyMin logDates - historyEpoch) 14|
    let sprintsForward := Int.fdiv (pyMax logDates - historyEpoch) 14
    (rangeInt (-sprintsBack) sprintsForward).filter (fun i =>
      let se := getSprintDates cfg (some i) nowDay nowSec
      (logs.any (fun l => decide (se.1 ≤ l.day) && decide (l.day ≤ se.2))) ||
        decide (se.2 * 86400 < nowDay * 86400 + nowSec))

/-- The 14-day lookback filter of `display_statistics` (src/b_logger.py lines
872-881): keep logs whose midnight date is at least
`now - timedelta(days=13)`, where `now` carries the wall-clock time of day. -/
def recentLogs (logs : List LogEntry) (nowDay nowSec : Int) : List LogEntry :=
  logs.filter (fun l => decide (l.day * 86400 ≥ nowDay * 86400 + nowSec - 13 * 86400))

/-- The distinct weekday (Mon-Fri) dates among the window's logs (lines
888-893). -/
def windowWeekdayDates (logs : List LogEntry) (nowDay nowSec : Int) : List Int :=
  (((recentLogs logs nowDay nowSec).map (fun l => l.day)).filter
    (fun d => decide (pyWeekday d < 5))).dedup

/-- Descending insertion, used to model Python `sorted(..., reverse=True)` on
distinct date keys. -/
def insertDesc (x : Int) : List Int → List Int
  | [] => [x]
  | y :: ys => if x ≥ y then x :: y :: ys else y :: insertDesc x ys

/-- Descending sort. -/
def sortDesc (l : List Int) : List Int := l.foldr insertDesc []

/-- The `workdays` list of `display_statistics` (lines 895-896): distinct
weekday dates sorted descending, at most the first 10 kept. -/
def workdaysOf (logs : List LogEntry) (nowDay nowSec : Int) : List Int :=
  (sortDesc (windowWeekdayDates logs nowDay nowSec)).take 10

/-- The re-filtered window (line 899): logs of the selected workdays. -/
def recent10 (logs : List LogEntry) (nowDay nowSec : Int) : List LogEntry :=
  (recentLogs logs nowDay nowSec).filter
    (fun l => decide (l.day ∈ workdaysOf logs nowDay nowSec))

/-- `hours_per_day[d]` (lines 917-922): summed parsed minutes of the day. -/
def minutesOn (ls : List LogEntry) (d : Int) : Int :=
  (ls.filter (fun l => decide (l.day = d))).foldl (fun a l => a + parseHours l.hours) 0

/-- `logs_by_date[d]` (lines 961-966): number of logs of the day. -/
def countOn (ls : List LogEntry) (d : Int) : Int :=
  ((ls.filter (fun l => decide (l.day = d))).length : Int)

/-- `max_hours` (line 944): `max(hours_per_day.values()) if hours_per_day
else 0`, the dict keys being the distinct days of the re-filtered window. -/
def maxHoursOf (logs : List LogEntry) (nowDay nowSec : Int) : Int :=
  pyMax ((((recent10 logs nowDay nowSec).map (fun l => l.day)).dedup).map
    (minutesOn (recent10 logs nowDay nowSec)))

/-- `max_logs` (line 968). -/
def maxLogsOf (logs : List LogEntry) (nowDay nowSec : Int) : Int :=
  pyMax ((((recent10 logs nowDay nowSec).map (fun l => l.day)).dedup).map
    (countOn (recent10 logs nowDay nowSec)))

/-- `int((value / max_value) * chart_width) if max_value > 0 else 0` (lines
950 and 973), `chart_width = 50`: the float division is modelled as exact
division, and Python `int()` truncation toward zero of the exact ratio
`value * 50 / maxV` is `Int.tdiv`. -/
def barLen (v maxV : Int) : Int :=
  if 0 < maxV then Int.tdiv (v * 50) maxV else 0

/-- The hours bar chart (lines 947-957) as (date, bar length) pairs in
iteration order. -/
def hoursChart (logs : List LogEntry) (nowDay nowSec : Int) : List (Int × Int) :=
  (workdaysOf logs nowDay nowSec).map (fun d =>
    (d, barLen (minutesOn (recent10 logs nowDay nowSec) d)
      (maxHoursOf logs nowDay nowSec)))

/-- The log-count bar chart (lines 970-979). -/
def logsChart (logs : List LogEntry) (nowDay nowSec : Int) : List (Int × Int) :=
  (workdaysOf logs nowDay nowSec).map (fun d =>
    (d, barLen (countOn (recent10 logs nowDay nowSec) d)
      (maxLogsOf logs nowDay nowSec)))

/-- `log['ticket'].split()[0].split('[')[0]` (line 834): the token before the
first whitespace, cut at the first `'['`. -/
def ticketKey (t : String) : String :=
  ⟨((t.data.dropWhile pySpace).takeWhile (fun c => !pySpace c)).takeWhile
    (fun c => c ≠ '[')⟩

/-- Python `str.startswith`. -/
def pyStartsWith (s p : String) : Bool := p.data.isPrefixOf s.data

/-- Substring test: Python `pat in s`. -/
def hasSub (pat : List Char) : List Char → Bool
  | [] => pat.isEmpty
  | c :: rest => pat.isPrefixOf (c :: rest) || hasSub pat rest

/-- `'[Q]' in log['ticket']` (line 836). -/
def containsQ (t : String) : Bool := hasSub "[Q]".data t.data

/-- Insertion-ordered dict update: replace the value of an existing key in
place, else append the binding. -/
def upsert (acc : List (String × String)) (k v : String) : List (String × String) :=
  match acc with
  | [] => [(k, v)]
  | (k2, v2) :: rest => if k2 = k then (k, v) :: rest else (k2, v2) :: upsert rest k v

/-- The `qi_logs` dict built by `view_sprint_logs` (src/b_logger.py lines
829-837), with the ticket prefix as a parameter: the source hardcodes the
literal `'QI-'` there (the spec's `distinct_prefixed_tickets` names it as a
parameter), while the `'[Q]'` preference marker stays literal as in the
source. For each log whose ticket starts with the prefix, bind its key to
the ticket when the ticket contains `'[Q]'` or the key is unseen. -/
def qiLogsFold (p : String) (logs : List LogEntry) : List (String × String) :=
  logs.foldl (fun acc log =>
    if pyStartsWith log.ticket p then
      let k := ticketKey log.ticket
      if containsQ log.ticket || (acc.lookup k).isNone then upsert acc k log.ticket
      else acc
    else acc) []

/-- Whether a log matches prefix `p` with extracted key `k`. -/
def keyMatches (p : String) (k : String) (log : LogEntry) : Bool :=
  pyStartsWith log.ticket p && decide (ticketKey log.ticket = k)

/-- First matching ticket: the `first seen` fallback. -/
def firstMatchTicket (p k : String) (logs : List LogEntry) : Option String :=
  ((logs.filter (keyMatches p k)).head?).map (fun l => l.ticket)

/-- Last matching `'[Q]'`-marked ticket. -/
def lastQTicket (p k : String) (logs : List LogEntry) : Option String :=
  ((logs.filter (fun l => keyMatches p k l && containsQ l.ticket)).getLast?).map
    (fun l => l.ticket)

/-- The status update of `mark_as_checked` (src/b_logger.py lines 400-404)
on the selected entry: set `q_status` to `"✅"` when the choice is `q` or
`b`, and `jira_status` when `j` or `b`. -/
def applyCheck (choice : String) (l : LogEntry) : LogEntry :=
  let l1 := if choice = "q" ∨ choice = "b" then { l with q_status := "✅" } else l
  if choice = "j" ∨ choice = "b" then { l1 with jira_status := "✅" } else l1

/-- The status update of `mark_as_unchecked` (lines 448-452): same with `"❌"`. -/
def applyUncheck (choice : String) (l : LogEntry) : LogEntry :=
  let l1 := if choice = "q" ∨ choice = "b" then { l with q_status := "❌" } else l
  if choice = "j" ∨ choice = "b" then { l1 with jira_status := "❌" } else l1

/-- `BLogger.mark_as_checked` (src/b_logger.py lines 395-413) restricted to
its effect on the log list: update the indexed entry when the index is in
range, else leave the list unchanged. -/
def markAsChecked (logs : List LogEntry) (choice : String) (idx : Nat) : List LogEntry :=
  match logs.get? idx with
  | some l => logs.set idx (applyCheck choice l)
  | none => logs

/-- `BLogger.mark_as_unchecked` (src/b_logger.py lines 443-461) on the log
list. -/
def markAsUnchecked (logs : List LogEntry) (choice : String) (idx : Nat) : List LogEntry :=
  match logs.get? idx with
  | some l => logs.set idx (applyUncheck choice l)
  | none => logs

/-- A sample log entry (dated day 7) used in the C3 counterexample. -/
def c3Log : LogEntry := ⟨7, "QI-1 task", "1h", "❌", "❌", []⟩

/-- Sample entries for the C10 witness. -/
def c10e1 : LogEntry := ⟨7, "QI-1 a", "1h", "❌", "❌", ["s1"]⟩

/-- Second sample entry for the C10 witness. -/
def c10e2 : LogEntry := ⟨8, "JIRA-2 b", "30m", "❌", "✅", []⟩

/-- The value bound to key `k` after the remaining logs are folded over a
current binding `cur` (the single-key projection of the `qi_logs` loop). -/
def qiKeptFrom (p k : String) : List LogEntry → Option String → Option String
  | [], cur => cur
  | log :: rest, cur =>
    if keyMatches p k log && (containsQ log.ticket || cur.isNone) then
      qiKeptFrom p k rest (some log.ticket)
    else qiKeptFrom p k rest cur

/-- A log 30 days after the epoch (sprint index 2), for the C5 counterexample. -/
def c5Log : LogEntry := ⟨historyEpoch + 30, "QI-9 t", "1h", "❌", "❌", []⟩

/-- Sample entry with a negative parsed duration, for the C6 counterexample. -/
def c6e1 : LogEntry := ⟨1, "QI-3 a", "-1m", "❌", "❌", []⟩

/-- Sample entry with a small positive duration, for the C6 counterexample. -/
def c6e2 : LogEntry := ⟨0, "QI-4 b", "3m", "❌", "❌", []⟩

example : daysFromCivil 1970 1 1 = 0 := by decide
example : pyWeekday (daysFromCivil 2025 4 30) = 2 := by decide
example : daysFromCivil 2025 5 10 - daysFromCivil 2025 4 30 = 10 := by decide
example : daysFromCivil 2025 5 14 - daysFromCivil 2025 4 30 = 14 := by decide
example : daysFromCivil 2025 4 20 - daysFromCivil 2025 4 30 = -10 := by decide
example :
    currentSprintNumber ⟨daysFromCivil 2025 4 30, 2⟩ (daysFromCivil 2025 5 10) 0 = 0 := by
  decide
example :
    currentSprintNumber ⟨daysFromCivil 2025 4 30, 2⟩ (daysFromCivil 2025 5 14) 0 = 1 := by
  decide
example :
    currentSprintNumber ⟨daysFromCivil 2025 4 30, 2⟩ (daysFromCivil 2025 4 20) 0 = -1 := by
  decide
example : parseHours "1h 30m" = 90 := by decide
example : parseHours "45m" = 45 := by decide
example : parseHours "2" = 120 := by decide
example : parseHours "ongoing" = 0 := by decide
example : parseHours "" = 0 := by decide
example : parseHours "30m 1h" = 30 := by decide
example : parseHours "1 hours" = 60 := by decide
example : parseHours "-1m" = -1 := by decide
example : formatHours 480 = "8h" := by decide
example : formatHours 90 = "1h 30m" := by decide
example : formatHours 0 = "" := by decide
example : parseHours (formatHours 61) = 61 := by decide

theorem digitChar_isDigit (d : Nat) (h : d < 10) : (Nat.digitChar d).isDigit = true := by
  interval_cases d <;> decide

theorem digitChar_toLower (d : Nat) (h : d < 10) :
    Char.toLower (Nat.digitChar d) = Nat.digitChar d := by
  interval_cases d <;> decide

theorem digitChar_not_space (d : Nat) (h : d < 10) : pySpace (Nat.digitChar d) = false := by
  interval_cases d <;> decide

theorem digitChar_ne (d : Nat) (h : d < 10) :
    Nat.digitChar d ≠ 'h' ∧ Nat.digitChar d ≠ 'm' ∧ Nat.digitChar d ≠ 'o' ∧
    Nat.digitChar d ≠ '-' ∧ Nat.digitChar d ≠ '+' := by
  interval_cases d <;> decide

theorem digitChar_val (d : Nat) (h : d < 10) : (Nat.digitChar d).toNat - 48 = d := by
  interval_cases d <;> decide

theorem digitsAux_mem (fuel : Nat) :
    ∀ (n : Nat), ∀ c ∈ digitsAux fuel n, ∃ d, d < 10 ∧ c = Nat.digitChar d := by
  induction fuel with
  | zero => intro n c hc; simp [digitsAux] at hc
  | succ fuel ih =>
    intro n c hc
    by_cases hn : n < 10
    · simp [digitsAux, hn] at hc
      exact ⟨n, hn, hc⟩
    · simp [digitsAux, hn] at hc
      rcases hc with hc | hc
      · exact ih _ c hc
      · exact ⟨n % 10, Nat.mod_lt _ (by norm_num), hc⟩

theorem natDigits_mem (n : Nat) : ∀ c ∈ natDigits n, ∃ d, d < 10 ∧ c = Nat.digitChar d :=
  digitsAux_mem (n + 1) n

theorem natDigits_ne_nil (n : Nat) : natDigits n ≠ [] := by
  unfold natDigits
  by_cases hn : n < 10 <;> simp [digitsAux, hn]

theorem natDigits_isDigit (n : Nat) : ∀ c ∈ natDigits n, c.isDigit = true := by
  intro c hc
  obtain ⟨d, hd, rfl⟩ := natDigits_mem n c hc
  exact digitChar_isDigit d hd

theorem digitsToNat_append (l : List Char) (c : Char) :
    digitsToNat (l ++ [c]) = 10 * digitsToNat l + (c.toNat - 48) := by
  simp [digitsToNat, List.foldl_append]
  omega

theorem digitsToNat_digitsAux (fuel : Nat) :
    ∀ n, n < fuel → digitsToNat (digitsAux fuel n) = n := by
  induction fuel with
  | zero => intro n h; omega
  | succ fuel ih =>
    intro n hn
    by_cases h10 : n < 10
    · simp [digitsAux, h10, digitsToNat]
      exact digitChar_val n h10
    · have hdiv : n / 10 < fuel := by
        have := Nat.div_lt_self (show 0 < n by omega) (show 1 < 10 by norm_num)
        omega
      simp [digitsAux, h10, digitsToNat_append]
      rw [ih (n / 10) hdiv, digitChar_val (n % 10) (Nat.mod_lt _ (by norm_num))]
      omega

theorem digitsToNat_natDigits (n : Nat) : digitsToNat (natDigits n) = n :=
  digitsToNat_digitsAux (n + 1) n (by omega)

theorem isdigitL_natDigits (n : Nat) : isdigitL (natDigits n) = true := by
  simp [isdigitL, List.all_eq_true, natDigits_ne_nil n, List.isEmpty_iff]
  exact natDigits_isDigit n

theorem pyIntL_natDigits (n : Nat) : pyIntL? (natDigits n) = some (n : Int) := by
  rcases hnd : natDigits n with _ | ⟨c, rest⟩
  · exact absurd hnd (natDigits_ne_nil n)
  · have hc : c ∈ natDigits n := by rw [hnd]; simp
    obtain ⟨d, hd, rfl⟩ := natDigits_mem n c hc
    have hne := digitChar_ne d hd
    have hdig : isdigitL (Nat.digitChar d :: rest) = true := by
      rw [← hnd]; exact isdigitL_natDigits n
    simp only [pyIntL?, if_neg hne.2.2.2.1, if_neg hne.2.2.2.2, hdig, if_pos rfl]
    rw [← hnd, digitsToNat_natDigits]
    simp

theorem map_id_of_mem {α : Type} (f : α → α) :
    ∀ (l : List α), (∀ x ∈ l, f x = x) → l.map f = l := by
  intro l
  induction l with
  | nil => simp
  | cons x xs ih =>
    intro h
    simp only [List.map_cons, h x (by simp), ih (fun y hy => h y (by simp [hy]))]

theorem takeWhile_append_all {α : Type} (p : α → Bool) (xs ys : List α)
    (h : ∀ x ∈ xs, p x = true) :
    (xs ++ ys).takeWhile p = xs ++ ys.takeWhile p := by
  induction xs with
  | nil => simp
  | cons x l ih =>
    have hx := h x (by simp)
    have ih2 := ih (fun y hy => h y (by simp [hy]))
    simp [List.takeWhile_cons, hx, ih2]

theorem contains_iff_mem {c : Char} {l : List Char} : l.contains c = true ↔ c ∈ l := by
  simp [List.contains, List.elem_iff]

theorem stripHoursWord_eq_self : ∀ (l : List Char), 'o' ∉ l → stripHoursWord l = l := by
  intro l
  induction l using stripHoursWord.induct with
  | case1 rest ih => intro h; simp at h
  | case2 c rest h1 ih =>
    intro h
    rw [stripHoursWord.eq_def]
    split
    · rename_i rest2 heq
      exfalso
      have : 'o' ∈ c :: rest := by rw [heq]; simp
      exact h this
    · rename_i c2 rest2 h2 heq
      cases heq
      rw [ih (fun hm => h (List.mem_cons_of_mem _ hm))]
    · simp_all
  | case3 => intro _; rfl

theorem mem_of_getLast?_eq {l : List Char} {c : Char} (h : l.getLast? = some c) : c ∈ l := by
  have hm : c ∈ l.getLast? := Option.mem_def.mpr h
  obtain ⟨hne, rfl⟩ := List.mem_getLast?_eq_getLast hm
  exact List.getLast_mem hne

theorem trimL_eq_self (l : List Char) (h1 : ∀ c, l.head? = some c → pySpace c = false)
    (h2 : ∀ c, l.getLast? = some c → pySpace c = false) : trimL l = l := by
  unfold trimL
  have d1 : l.dropWhile pySpace = l := by
    cases l with
    | nil => rfl
    | cons x xs => simp [List.dropWhile_cons, h1 x rfl]
  rw [d1]
  have d2 : l.reverse.dropWhile pySpace = l.reverse := by
    cases hr : l.reverse with
    | nil => rfl
    | cons x xs =>
      have hx : l.getLast? = some x := by
        rw [← List.head?_reverse, hr]
        rfl
      simp [List.dropWhile_cons, h2 x hx]
  rw [d2, List.reverse_reverse]

theorem trimL_natDigits (n : Nat) : trimL (natDigits n) = natDigits n := by
  apply trimL_eq_self
  · intro c hc
    have : c ∈ natDigits n := by
      cases h : natDigits n with
      | nil => rw [h] at hc; simp at hc
      | cons y ys => rw [h] at hc; simp at hc; simp [h, hc]
    obtain ⟨d, hd, rfl⟩ := natDigits_mem n c this
    exact digitChar_not_space d hd
  · intro c hc
    have : c ∈ natDigits n := mem_of_getLast?_eq hc
    obtain ⟨d, hd, rfl⟩ := natDigits_mem n c this
    exact digitChar_not_space d hd

theorem afterLastH_append (xs ys : List Char) (h : 'h' ∉ ys) :
    afterLastH (xs ++ 'h' :: ys) = ys := by
  unfold afterLastH
  have : (xs ++ 'h' :: ys).reverse = ys.reverse ++ 'h' :: xs.reverse := by
    simp
  rw [this, takeWhile_append_all _ ys.reverse _
    (by intro x hx; simp at hx; simp; intro he; exact h (he ▸ hx))]
  simp [List.takeWhile_cons]

theorem parseHoursL_of_clean (s : List Char)
    (h1 : s ≠ []) (h2 : s.map Char.toLower = s) (h3 : s ≠ "ongoing".data)
    (h4 : 'o' ∉ s) (h5 : trimL s = s) :
    parseHoursL s =
      (if s.contains 'h' then
        match pyIntL? (trimL (s.takeWhile (fun c => c ≠ 'h'))) with
        | some n => n * 60
        | none => 0
      else if isdigitL s then
        match pyIntL? (trimL s) with
        | some n => n * 60
        | none => 0
      else 0) +
      (if s.contains 'm' then
        match pyIntL? (trimL (if (s.takeWhile (fun c => c ≠ 'm')).contains 'h' then
            afterLastH (s.takeWhile (fun c => c ≠ 'm'))
          else s.takeWhile (fun c => c ≠ 'm'))) with
        | some n => n
        | none => 0
      else 0) := by
  unfold parseHoursL
  rw [if_neg (by push_neg; exact ⟨h1, by rw [h2]; exact h3⟩)]
  rw [h2, stripHoursWord_eq_self s h4]
  simp only [h5]

theorem natDigits_no_h (n : Nat) : 'h' ∉ natDigits n := by
  intro hm
  obtain ⟨d, hd, he⟩ := natDigits_mem n 'h' hm
  exact (digitChar_ne d hd).1 he.symm

theorem natDigits_no_m (n : Nat) : 'm' ∉ natDigits n := by
  intro hm
  obtain ⟨d, hd, he⟩ := natDigits_mem n 'm' hm
  exact (digitChar_ne d hd).2.1 he.symm

theorem natDigits_no_o (n : Nat) : 'o' ∉ natDigits n := by
  intro hm
  obtain ⟨d, hd, he⟩ := natDigits_mem n 'o' hm
  exact (digitChar_ne d hd).2.2.1 he.symm

theorem natDigits_toLower (n : Nat) : ∀ c ∈ natDigits n, Char.toLower c = c := by
  intro c hc
  obtain ⟨d, hd, rfl⟩ := natDigits_mem n c hc
  exact digitChar_toLower d hd

theorem natDigits_head_not_space (n : Nat) :
    ∀ c, (natDigits n).head? = some c → pySpace c = false := by
  intro c hc
  have hm : c ∈ natDigits n := by
    cases h : natDigits n with
    | nil => rw [h] at hc; simp at hc
    | cons y ys => rw [h] at hc; simp at hc; simp [h, hc]
  obtain ⟨d, hd, rfl⟩ := natDigits_mem n c hm
  exact digitChar_not_space d hd

theorem takeWhile_all {α : Type} (p : α → Bool) (l : List α) (h : ∀ x ∈ l, p x = true) :
    l.takeWhile p = l := by
  have := takeWhile_append_all p l [] h
  simpa using this

theorem parseHoursL_h_form (hn : Nat) :
    parseHoursL (natDigits hn ++ ['h']) = (hn : Int) * 60 := by
  have hne : natDigits hn ++ ['h'] ≠ [] := by simp
  have hlow : (natDigits hn ++ ['h']).map Char.toLower = natDigits hn ++ ['h'] := by
    apply map_id_of_mem
    intro x hx
    rcases List.mem_append.mp hx with hx | hx
    · exact natDigits_toLower hn x hx
    · simp at hx; subst hx; decide
  have hong : natDigits hn ++ ['h'] ≠ "ongoing".data := by
    intro he
    have : 'h' ∈ "ongoing".data := by rw [← he]; simp
    exact absurd this (by decide)
  have hno : 'o' ∉ natDigits hn ++ ['h'] := by
    intro hm
    rcases List.mem_append.mp hm with hm | hm
    · exact natDigits_no_o hn hm
    · simp at hm
  have htrim : trimL (natDigits hn ++ ['h']) = natDigits hn ++ ['h'] := by
    apply trimL_eq_self
    · intro c hc
      rw [List.head?_append_of_ne_nil _ (natDigits_ne_nil hn)] at hc
      exact natDigits_head_not_space hn c hc
    · intro c hc
      simp at hc
      subst hc; decide
  rw [parseHoursL_of_clean _ hne hlow hong hno htrim]
  have hch : (natDigits hn ++ ['h']).contains 'h' = true := contains_iff_mem.mpr (by simp)
  have hcm : ¬((natDigits hn ++ ['h']).contains 'm' = true) := by
    rw [contains_iff_mem]
    intro hm
    rcases List.mem_append.mp hm with hm | hm
    · exact natDigits_no_m hn hm
    · simp at hm
  rw [if_pos hch, if_neg hcm]
  have htw : (natDigits hn ++ ['h']).takeWhile (fun c => decide (c ≠ 'h')) = natDigits hn := by
    rw [takeWhile_append_all _ (natDigits hn) _
      (fun x hx => by simp; intro he; exact natDigits_no_h hn (he ▸ hx))]
    simp
  rw [htw, trimL_natDigits, pyIntL_natDigits]
  simp

theorem pyIntL_none_of_nondigit (l : List Char) (c0 : Char) (hc0 : c0 ∈ l)
    (hnd : c0.isDigit = false)
    (hhead : ∀ c, l.head? = some c → (c ≠ '-' ∧ c ≠ '+')) : pyIntL? l = none := by
  cases l with
  | nil => rfl
  | cons c rest =>
    have h := hhead c rfl
    have hdg : ¬(isdigitL (c :: rest) = true) := by
      intro hd
      simp only [isdigitL, Bool.and_eq_true, List.all_eq_true] at hd
      exact absurd (hd.2 c0 hc0) (by simp [hnd])
    simp [pyIntL?, h.1, h.2, hdg]

theorem natDigits_getLast_not_space (n : Nat) :
    ∀ c, (natDigits n).getLast? = some c → pySpace c = false := by
  intro c hc
  obtain ⟨d, hd, rfl⟩ := natDigits_mem n c (mem_of_getLast?_eq hc)
  exact digitChar_not_space d hd

theorem trimL_space_digits (n : Nat) : trimL (' ' :: natDigits n) = natDigits n := by
  unfold trimL
  have h1 : (' ' :: natDigits n).dropWhile pySpace = natDigits n := by
    rw [List.dropWhile_cons]
    simp only [show pySpace ' ' = true from by decide, if_true]
    cases h : natDigits n with
    | nil => simp
    | cons y ys =>
      have hy : pySpace y = false := natDigits_head_not_space n y (by rw [h]; rfl)
      simp [List.dropWhile_cons, hy]
  rw [h1]
  have h2 : (natDigits n).reverse.dropWhile pySpace = (natDigits n).reverse := by
    cases hr : (natDigits n).reverse with
    | nil => rfl
    | cons x xs =>
      have hx : (natDigits n).getLast? = some x := by
        rw [← List.head?_reverse, hr]; rfl
      simp [List.dropWhile_cons, natDigits_getLast_not_space n x hx]
  rw [h2, List.reverse_reverse]

theorem parseHoursL_m_form (mn : Nat) :
    parseHoursL (natDigits mn ++ ['m']) = (mn : Int) := by
  have hne : natDigits mn ++ ['m'] ≠ [] := by simp
  have hlow : (natDigits mn ++ ['m']).map Char.toLower = natDigits mn ++ ['m'] := by
    apply map_id_of_mem
    intro x hx
    rcases List.mem_append.mp hx with hx | hx
    · exact natDigits_toLower mn x hx
    · simp at hx; subst hx; decide
  have hong : natDigits mn ++ ['m'] ≠ "ongoing".data := by
    intro he
    have : 'm' ∈ "ongoing".data := by rw [← he]; simp
    exact absurd this (by decide)
  have hno : 'o' ∉ natDigits mn ++ ['m'] := by
    intro hm
    rcases List.mem_append.mp hm with hm | hm
    · exact natDigits_no_o mn hm
    · simp at hm
  have htrim : trimL (natDigits mn ++ ['m']) = natDigits mn ++ ['m'] := by
    apply trimL_eq_self
    · intro c hc
      rw [List.head?_append_of_ne_nil _ (natDigits_ne_nil mn)] at hc
      exact natDigits_head_not_space mn c hc
    · intro c hc
      simp at hc
      subst hc; decide
  rw [parseHoursL_of_clean _ hne hlow hong hno htrim]
  have hch : ¬((natDigits mn ++ ['m']).contains 'h' = true) := by
    rw [contains_iff_mem]
    intro hm
    rcases List.mem_append.mp hm with hm | hm
    · exact natDigits_no_h mn hm
    · simp at hm
  have hdg : ¬(isdigitL (natDigits mn ++ ['m']) = true) := by
    intro hd
    simp only [isdigitL, Bool.and_eq_true, List.all_eq_true] at hd
    exact absurd (hd.2 'm' (by simp)) (by decide)
  rw [if_neg hch, if_neg hdg]
  have hcm : (natDigits mn ++ ['m']).contains 'm' = true := contains_iff_mem.mpr (by simp)
  rw [if_pos hcm]
  have htw : (natDigits mn ++ ['m']).takeWhile (fun c => decide (c ≠ 'm')) = natDigits mn := by
    rw [takeWhile_append_all _ (natDigits mn) _
      (fun x hx => by simp; intro he; exact natDigits_no_m mn (he ▸ hx))]
    simp
  rw [htw, if_neg (show ¬((natDigits mn).contains 'h' = true) from
    fun hc => natDigits_no_h mn (contains_iff_mem.mp hc))]
  rw [trimL_natDigits, pyIntL_natDigits]
  simp

theorem parseHoursL_bare (hn : Nat) :
    parseHoursL (natDigits hn) = (hn : Int) * 60 := by
  have hne : natDigits hn ≠ [] := natDigits_ne_nil hn
  have hlow : (natDigits hn).map Char.toLower = natDigits hn :=
    map_id_of_mem _ _ (natDigits_toLower hn)
  have hong : natDigits hn ≠ "ongoing".data := by
    intro he
    have : 'o' ∈ natDigits hn := by rw [he]; decide
    exact natDigits_no_o hn this
  have hno : 'o' ∉ natDigits hn := natDigits_no_o hn
  rw [parseHoursL_of_clean _ hne hlow hong hno (trimL_natDigits hn)]
  have hch : ¬((natDigits hn).contains 'h' = true) :=
    fun hc => natDigits_no_h hn (contains_iff_mem.mp hc)
  have hcm : ¬((natDigits hn).contains 'm' = true) :=
    fun hc => natDigits_no_m hn (contains_iff_mem.mp hc)
  rw [if_neg hch, if_neg hcm, if_pos (isdigitL_natDigits hn), trimL_natDigits,
    pyIntL_natDigits]
  simp

theorem parseHoursL_hm_form (hn mn : Nat) :
    parseHoursL (natDigits hn ++ ('h' :: (' ' :: (natDigits mn ++ ['m'])))) =
      (hn : Int) * 60 + mn := by
  have hmem : ∀ x ∈ natDigits hn ++ ('h' :: (' ' :: (natDigits mn ++ ['m']))),
      x ∈ natDigits hn ∨ x = 'h' ∨ x = ' ' ∨ x ∈ natDigits mn ∨ x = 'm' := by
    intro x hx
    simp only [List.mem_append, List.mem_cons, List.mem_singleton] at hx
    tauto
  have hne : natDigits hn ++ ('h' :: (' ' :: (natDigits mn ++ ['m']))) ≠ [] := by simp
  have hlow : (natDigits hn ++ ('h' :: (' ' :: (natDigits mn ++ ['m'])))).map Char.toLower =
      natDigits hn ++ ('h' :: (' ' :: (natDigits mn ++ ['m']))) := by
    apply map_id_of_mem
    intro x hx
    rcases hmem x hx with hx | hx | hx | hx | hx
    · exact natDigits_toLower hn x hx
    · subst hx; decide
    · subst hx; decide
    · exact natDigits_toLower mn x hx
    · subst hx; decide
  have hong : natDigits hn ++ ('h' :: (' ' :: (natDigits mn ++ ['m']))) ≠ "ongoing".data := by
    intro he
    have : 'h' ∈ "ongoing".data := by rw [← he]; simp
    exact absurd this (by decide)
  have hno : 'o' ∉ natDigits hn ++ ('h' :: (' ' :: (natDigits mn ++ ['m']))) := by
    intro hm
    rcases hmem 'o' hm with hx | hx | hx | hx | hx
    · exact natDigits_no_o hn hx
    · exact absurd hx (by decide)
    · exact absurd hx (by decide)
    · exact natDigits_no_o mn hx
    · exact absurd hx (by decide)
  have hassoc : natDigits hn ++ ('h' :: (' ' :: (natDigits mn ++ ['m']))) =
      (natDigits hn ++ ('h' :: (' ' :: natDigits mn))) ++ ['m'] := by simp
  have htrim : trimL (natDigits hn ++ ('h' :: (' ' :: (natDigits mn ++ ['m'])))) =
      natDigits hn ++ ('h' :: (' ' :: (natDigits mn ++ ['m']))) := by
    apply trimL_eq_self
    · intro c hc
      rw [List.head?_append_of_ne_nil _ (natDigits_ne_nil hn)] at hc
      exact natDigits_head_not_space hn c hc
    · intro c hc
      rw [hassoc] at hc
      simp only [List.getLast?_concat] at hc
      cases hc
      decide
  rw [parseHoursL_of_clean _ hne hlow hong hno htrim]
  have hch : (natDigits hn ++ ('h' :: (' ' :: (natDigits mn ++ ['m'])))).contains 'h' = true :=
    contains_iff_mem.mpr (by simp)
  have hcm : (natDigits hn ++ ('h' :: (' ' :: (natDigits mn ++ ['m'])))).contains 'm' = true :=
    contains_iff_mem.mpr (by simp)
  rw [if_pos hch, if_pos hcm]
  have htwh : (natDigits hn ++ ('h' :: (' ' :: (natDigits mn ++ ['m'])))).takeWhile
      (fun c => decide (c ≠ 'h')) = natDigits hn := by
    rw [takeWhile_append_all _ (natDigits hn) _
      (fun x hx => by simp; intro he; exact natDigits_no_h hn (he ▸ hx))]
    simp
  have htwm : (natDigits hn ++ ('h' :: (' ' :: (natDigits mn ++ ['m'])))).takeWhile
      (fun c => decide (c ≠ 'm')) = natDigits hn ++ ('h' :: (' ' :: natDigits mn)) := by
    rw [hassoc]
    rw [takeWhile_append_all _ (natDigits hn ++ ('h' :: (' ' :: natDigits mn))) _ ?side]
    · simp
    case side =>
      intro x hx
      simp only [List.mem_append, List.mem_cons] at hx
      simp
      intro he
      subst he
      rcases hx with hx | hx | hx | hx
      · exact natDigits_no_m hn hx
      · exact absurd hx (by decide)
      · exact absurd hx (by decide)
      · exact natDigits_no_m mn hx
  rw [htwh, trimL_natDigits, pyIntL_natDigits, htwm]
  have hmph : (natDigits hn ++ ('h' :: (' ' :: natDigits mn))).contains 'h' = true :=
    contains_iff_mem.mpr (by simp)
  rw [if_pos hmph]
  have hafter : afterLastH (natDigits hn ++ ('h' :: (' ' :: natDigits mn))) =
      ' ' :: natDigits mn := by
    apply afterLastH_append
    intro hm
    rcases List.mem_cons.mp hm with hm | hm
    · exact absurd hm (by decide)
    · exact natDigits_no_h mn hm
  rw [hafter, trimL_space_digits, pyIntL_natDigits]

theorem parseHoursL_mh_form (mn hn : Nat) :
    parseHoursL (natDigits mn ++ ('m' :: (' ' :: (natDigits hn ++ ['h'])))) = (mn : Int) := by
  have hmem : ∀ x ∈ natDigits mn ++ ('m' :: (' ' :: (natDigits hn ++ ['h']))),
      x ∈ natDigits mn ∨ x = 'm' ∨ x = ' ' ∨ x ∈ natDigits hn ∨ x = 'h' := by
    intro x hx
    simp only [List.mem_append, List.mem_cons, List.mem_singleton] at hx
    tauto
  have hne : natDigits mn ++ ('m' :: (' ' :: (natDigits hn ++ ['h']))) ≠ [] := by simp
  have hlow : (natDigits mn ++ ('m' :: (' ' :: (natDigits hn ++ ['h'])))).map Char.toLower =
      natDigits mn ++ ('m' :: (' ' :: (natDigits hn ++ ['h']))) := by
    apply map_id_of_mem
    intro x hx
    rcases hmem x hx with hx | hx | hx | hx | hx
    · exact natDigits_toLower mn x hx
    · subst hx; decide
    · subst hx; decide
    · exact natDigits_toLower hn x hx
    · subst hx; decide
  have hong : natDigits mn ++ ('m' :: (' ' :: (natDigits hn ++ ['h']))) ≠ "ongoing".data := by
    intro he
    have : 'm' ∈ "ongoing".data := by rw [← he]; simp
    exact absurd this (by decide)
  have hno : 'o' ∉ natDigits mn ++ ('m' :: (' ' :: (natDigits hn ++ ['h']))) := by
    intro hm
    rcases hmem 'o' hm with hx | hx | hx | hx | hx
    · exact natDigits_no_o mn hx
    · exact absurd hx (by decide)
    · exact absurd hx (by decide)
    · exact natDigits_no_o hn hx
    · exact absurd hx (by decide)
  have hassoc : natDigits mn ++ ('m' :: (' ' :: (natDigits hn ++ ['h']))) =
      (natDigits mn ++ ('m' :: (' ' :: natDigits hn))) ++ ['h'] := by simp
  have htrim : trimL (natDigits mn ++ ('m' :: (' ' :: (natDigits hn ++ ['h'])))) =
      natDigits mn ++ ('m' :: (' ' :: (natDigits hn ++ ['h']))) := by
    apply trimL_eq_self
    · intro c hc
      rw [List.head?_append_of_ne_nil _ (natDigits_ne_nil mn)] at hc
      exact natDigits_head_not_space mn c hc
    · intro c hc
      rw [hassoc] at hc
      simp only [List.getLast?_concat] at hc
      cases hc
      decide
  rw [parseHoursL_of_clean _ hne hlow hong hno htrim]
  have hch : (natDigits mn ++ ('m' :: (' ' :: (natDigits hn ++ ['h'])))).contains 'h' = true :=
    contains_iff_mem.mpr (by simp)
  have hcm : (natDigits mn ++ ('m' :: (' ' :: (natDigits hn ++ ['h'])))).contains 'm' = true :=
    contains_iff_mem.mpr (by simp)
  rw [if_pos hch, if_pos hcm]
  have htwh : (natDigits mn ++ ('m' :: (' ' :: (natDigits hn ++ ['h'])))).takeWhile
      (fun c => decide (c ≠ 'h')) = natDigits mn ++ ('m' :: (' ' :: natDigits hn)) := by
    rw [hassoc]
    rw [takeWhile_append_all _ (natDigits mn ++ ('m' :: (' ' :: natDigits hn))) _ ?side]
    · simp
    case side =>
      intro x hx
      simp only [List.mem_append, List.mem_cons] at hx
      simp
      intro he
      subst he
      rcases hx with hx | hx | hx | hx
      · exact natDigits_no_h mn hx
      · exact absurd hx (by decide)
      · exact absurd hx (by decide)
      · exact natDigits_no_h hn hx
  have htwm : (natDigits mn ++ ('m' :: (' ' :: (natDigits hn ++ ['h'])))).takeWhile
      (fun c => decide (c ≠ 'm')) = natDigits mn := by
    rw [takeWhile_append_all _ (natDigits mn) _
      (fun x hx => by simp; intro he; exact natDigits_no_m mn (he ▸ hx))]
    simp
  rw [htwh, htwm]
  have htr2 : trimL (natDigits mn ++ ('m' :: (' ' :: natDigits hn))) =
      natDigits mn ++ ('m' :: (' ' :: natDigits hn)) := by
    apply trimL_eq_self
    · intro c hc
      rw [List.head?_append_of_ne_nil _ (natDigits_ne_nil mn)] at hc
      exact natDigits_head_not_space mn c hc
    · intro c hc
      rw [show natDigits mn ++ ('m' :: (' ' :: natDigits hn)) =
        (natDigits mn ++ ['m', ' ']) ++ natDigits hn by simp] at hc
      rw [List.getLast?_append_of_ne_nil _ (natDigits_ne_nil hn)] at hc
      exact natDigits_getLast_not_space hn c hc
  rw [htr2]
  have hfail : pyIntL? (natDigits mn ++ ('m' :: (' ' :: natDigits hn))) = none := by
    apply pyIntL_none_of_nondigit _ 'm' (by simp) (by decide)
    intro c hc
    rw [List.head?_append_of_ne_nil _ (natDigits_ne_nil mn)] at hc
    have hm : c ∈ natDigits mn := by
      cases h : natDigits mn with
      | nil => rw [h] at hc; simp at hc
      | cons y ys => rw [h] at hc; simp at hc; simp [h, hc]
    obtain ⟨d, hd, rfl⟩ := natDigits_mem mn c hm
    exact ⟨(digitChar_ne d hd).2.2.2.1, (digitChar_ne d hd).2.2.2.2⟩
  rw [hfail]
  have hmph : ¬((natDigits mn).contains 'h' = true) :=
    fun hc => natDigits_no_h mn (contains_iff_mem.mp hc)
  rw [if_neg hmph, trimL_natDigits, pyIntL_natDigits]
  simp

theorem intToStr_natCast (k : Nat) : intToStr (k : Int) = natDigits k := by
  unfold intToStr
  simp

theorem parse_format_roundtripL (m : Nat) : parseHoursL (formatHoursL (m : Int)) = m := by
  by_cases h0 : m = 0
  · subst h0; decide
  · unfold formatHoursL
    rw [if_neg (show (m : Int) ≠ 0 by exact_mod_cast h0)]
    have hfdiv : Int.fdiv (m : Int) 60 = ((m / 60 : Nat) : Int) := by
      rw [Int.ofNat_fdiv]
      norm_num
    have hemod : Int.emod (m : Int) 60 = ((m % 60 : Nat) : Int) := by
      rw [show Int.emod (m : Int) 60 = (m : Int) % 60 from rfl]
      omega
    simp only [hfdiv, hemod]
    by_cases hr : (m % 60 : Nat) = 0
    · rw [show ((m % 60 : Nat) : Int) = 0 by exact_mod_cast hr, if_pos rfl, intToStr_natCast]
      rw [parseHoursL_h_form]
      push_cast
      omega
    · rw [if_neg (show ((m % 60 : Nat) : Int) ≠ 0 by exact_mod_cast hr)]
      rw [intToStr_natCast, intToStr_natCast]
      simp only [List.append_assoc, List.cons_append, List.nil_append]
      rw [parseHoursL_hm_form]
      push_cast
      omega

/-- C2 (amended): the duration parser recognizes an hour token followed by a
minute token in that order, or either token alone, or a bare integer read as
hours; the empty string and `"ongoing"` parse to 0; with the minute token
written before the hour token only the minutes are returned. In particular
`parse("1h 30m") = 90`, `parse("45m") = 45`, `parse("2") = 120`. -/
theorem c2_duration_parse_amended (hn mn : Nat) :
    parseHours (natStr hn ++ "h " ++ natStr mn ++ "m") = 60 * hn + mn ∧
    parseHours (natStr hn ++ "h") = 60 * hn ∧
    parseHours (natStr mn ++ "m") = mn ∧
    parseHours (natStr hn) = 60 * hn ∧
    parseHours (natStr mn ++ "m " ++ natStr hn ++ "h") = mn ∧
    parseHours "" = 0 ∧
    parseHours "ongoing" = 0 ∧
    parseHours "1h 30m" = 90 ∧
    parseHours "45m" = 45 ∧
    parseHours "2" = 120 := by
  refine ⟨?_, ?_, ?_, ?_, ?_, by decide, by decide, by decide, by decide, by decide⟩
  · show parseHoursL (natStr hn ++ "h " ++ natStr mn ++ "m").data = _
    rw [show (natStr hn ++ "h " ++ natStr mn ++ "m").data =
      natDigits hn ++ ('h' :: (' ' :: (natDigits mn ++ ['m']))) by
        simp [natStr, String.data_append]]
    rw [parseHoursL_hm_form]
    ring
  · show parseHoursL (natStr hn ++ "h").data = _
    rw [show (natStr hn ++ "h").data = natDigits hn ++ ['h'] by
      simp [natStr, String.data_append]]
    rw [parseHoursL_h_form]
    ring
  · show parseHoursL (natStr mn ++ "m").data = _
    rw [show (natStr mn ++ "m").data = natDigits mn ++ ['m'] by
      simp [natStr, String.data_append]]
    rw [parseHoursL_m_form]
  · show parseHoursL (natStr hn).data = _
    rw [show (natStr hn).data = natDigits hn from rfl, parseHoursL_bare]
    ring
  · show parseHoursL (natStr mn ++ "m " ++ natStr hn ++ "h").data = _
    rw [show (natStr mn ++ "m " ++ natStr hn ++ "h").data =
      natDigits mn ++ ('m' :: (' ' :: (natDigits hn ++ ['h']))) by
        simp [natStr, String.data_append]]
    rw [parseHoursL_mh_form]

/-- C1: for every nonnegative integer `m`, parsing the formatted duration
text returns `m` again: `parse_hours(format_hours(m)) = m`, including `m = 0`
(the empty string, which parses back to 0). -/
theorem c1_parse_format_roundtrip (m : Nat) : parseHours (formatHours (m : Int)) = m :=
  parse_format_roundtripL m

/-- C2 counterexample: the claim states the parser accepts the hour and
minute tokens in either order, which would give `parse("30m 1h") = 1*60+30`;
the code returns only the minutes, 30. -/
theorem c2_counterexample :
    parseHours "30m 1h" = 30 ∧ parseHours "30m 1h" ≠ 1 * 60 + 30 := by decide

/-- C4: for every sprint configuration with positive `duration_weeks`, the
current sprint index equals `floor((date - epoch_date in days) /
(duration_weeks * 7))` with floor (not truncating) division, for any
wall-clock time of day; dates before the epoch yield negative indices. -/
theorem c4_current_sprint_index (cfg : SprintConfig) (nowDay nowSec : Int)
    (h1 : 0 ≤ nowSec) (h2 : nowSec < 86400) (h3 : 0 < cfg.durationWeeks) :
    currentSprintNumber cfg nowDay nowSec =
      Int.fdiv (nowDay - cfg.startDay) (cfg.durationWeeks * 7) := by
  unfold currentSprintNumber timedeltaDays
  rw [show nowDay * 86400 + nowSec - cfg.startDay * 86400 =
    (nowDay - cfg.startDay) * 86400 + nowSec by ring]
  have hfd : Int.fdiv ((nowDay - cfg.startDay) * 86400 + nowSec) 86400 =
      nowDay - cfg.startDay := by
    rw [Int.fdiv_eq_ediv _ (by norm_num : (0 : Int) ≤ 86400)]
    rw [show (nowDay - cfg.startDay) * 86400 + nowSec =
      nowSec + (nowDay - cfg.startDay) * 86400 by ring]
    rw [Int.add_mul_ediv_right _ _ (by norm_num : (86400 : Int) ≠ 0)]
    rw [Int.ediv_eq_zero_of_lt h1 h2]
    ring
  rw [hfd]

/-- C4 witness: with epoch 2025-04-30 and `duration_weeks = 2`, the current
sprint index is 0 on 2025-05-10, 1 on 2025-05-14, and -1 on 2025-04-20. -/
theorem c4_current_sprint_index_witness :
    (0 : Int) ≤ 0 ∧ (0 : Int) < 86400 ∧ (0 : Int) < 2 ∧
    currentSprintNumber ⟨daysFromCivil 2025 4 30, 2⟩ (daysFromCivil 2025 5 10) 0 = 0 ∧
    currentSprintNumber ⟨daysFromCivil 2025 4 30, 2⟩ (daysFromCivil 2025 5 14) 0 = 1 ∧
    currentSprintNumber ⟨daysFromCivil 2025 4 30, 2⟩ (daysFromCivil 2025 4 20) 0 = -1 := by
  refine ⟨by decide, by decide, by decide, ?_, ?_, ?_⟩
  · exact (c4_current_sprint_index ⟨daysFromCivil 2025 4 30, 2⟩ (daysFromCivil 2025 5 10) 0
      (by decide) (by decide) (by decide)).trans (by decide)
  · exact (c4_current_sprint_index ⟨daysFromCivil 2025 4 30, 2⟩ (daysFromCivil 2025 5 14) 0
      (by decide) (by decide) (by decide)).trans (by decide)
  · exact (c4_current_sprint_index ⟨daysFromCivil 2025 4 30, 2⟩ (daysFromCivil 2025 4 20) 0
      (by decide) (by decide) (by decide)).trans (by decide)


/-- C3 counterexample: the claim says an entry dated exactly 13 days before
today is in the window for every injected today; with `now` = (day 20, one
second past midnight) the entry dated day 7 = 20 - 13 is excluded, because
the code compares midnight log dates against `datetime.now() -
timedelta(days=13)`, which retains the wall-clock time of day. -/
theorem c3_counterexample :
    c3Log.day = 20 - 13 ∧ recentLogs [c3Log] 20 1 = [] := by decide

/-- C3 (amended): the window keeps exactly the entries whose midnight date is
at least `now - 13 days` as instants: when the clock reads exactly midnight
these are the entries dated at least `today - 13`; for any later time of day
they are the entries dated at least `today - 12`. An entry dated 14 days
before today is always excluded. -/
theorem c3_window_amended (logs : List LogEntry) (nowDay nowSec : Int) (l : LogEntry)
    (h1 : 0 ≤ nowSec) (h2 : nowSec < 86400) :
    l ∈ recentLogs logs nowDay nowSec ↔
      l ∈ logs ∧ ((nowSec = 0 ∧ nowDay - 13 ≤ l.day) ∨
        (0 < nowSec ∧ nowDay - 12 ≤ l.day)) := by
  unfold recentLogs
  simp only [List.mem_filter, decide_eq_true_eq]
  constructor
  · rintro ⟨hm, hf⟩
    exact ⟨hm, by omega⟩
  · rintro ⟨hm, hca⟩
    exact ⟨hm, by omega⟩

/-- C3 witness: at exactly midnight of day 20 the day-7 entry is inside the
window. -/
theorem c3_window_amended_witness :
    (0 : Int) ≤ 0 ∧ (0 : Int) < 86400 ∧
    (c3Log ∈ recentLogs [c3Log] 20 0 ↔
      c3Log ∈ [c3Log] ∧ (((0 : Int) = 0 ∧ 20 - 13 ≤ c3Log.day) ∨
        ((0 : Int) < 0 ∧ 20 - 12 ≤ c3Log.day))) :=
  ⟨by decide, by decide, c3_window_amended [c3Log] 20 0 c3Log (by decide) (by decide)⟩

/-- C8 counterexample: with the log list and configuration fixed, the current
sprint dates and the statistics window change when only the ambient clock
value changes — the code reads `datetime.now()` inside `get_sprint_dates` and
`display_statistics` rather than consuming an injected today. -/
theorem c8_counterexample :
    getSprintDates ⟨historyEpoch, 2⟩ none historyEpoch 0 ≠
      getSprintDates ⟨historyEpoch, 2⟩ none (historyEpoch + 14) 0 ∧
    recentLogs [c3Log] 7 0 ≠ recentLogs [c3Log] 120 0 := by decide

/-- C8 (amended): the sprint-date calculation and the statistics window are
deterministic functions of (logs, config, clock instant); the current-sprint
calculation depends on the clock instant only through the sprint index it
determines. -/
theorem c8_clock_amended (cfg : SprintConfig) (nd1 ns1 nd2 ns2 : Int)
    (h : currentSprintNumber cfg nd1 ns1 = currentSprintNumber cfg nd2 ns2) :
    getSprintDates cfg none nd1 ns1 = getSprintDates cfg none nd2 ns2 := by
  simp only [getSprintDates]
  rw [h]

/-- C8 witness: two clock readings one day apart inside the same sprint give
the same current sprint dates. -/
theorem c8_clock_amended_witness :
    currentSprintNumber ⟨historyEpoch, 2⟩ historyEpoch 0 =
      currentSprintNumber ⟨historyEpoch, 2⟩ (historyEpoch + 1) 0 ∧
    getSprintDates ⟨historyEpoch, 2⟩ none historyEpoch 0 =
      getSprintDates ⟨historyEpoch, 2⟩ none (historyEpoch + 1) 0 :=
  ⟨by decide, c8_clock_amended ⟨historyEpoch, 2⟩ historyEpoch 0 (historyEpoch + 1) 0
    (by decide)⟩

/-- Field effect of `applyCheck`: only the selected status fields change. -/
theorem applyCheck_fields (choice : String) (l : LogEntry) :
    (applyCheck choice l).day = l.day ∧ (applyCheck choice l).ticket = l.ticket ∧
    (applyCheck choice l).hours = l.hours ∧ (applyCheck choice l).subtasks = l.subtasks ∧
    (applyCheck choice l).q_status =
      (if choice = "q" ∨ choice = "b" then "✅" else l.q_status) ∧
    (applyCheck choice l).jira_status =
      (if choice = "j" ∨ choice = "b" then "✅" else l.jira_status) := by
  unfold applyCheck
  by_cases h1 : choice = "q" ∨ choice = "b" <;>
    by_cases h2 : choice = "j" ∨ choice = "b" <;>
      simp [h1, h2]

/-- Field effect of `applyUncheck`. -/
theorem applyUncheck_fields (choice : String) (l : LogEntry) :
    (applyUncheck choice l).day = l.day ∧ (applyUncheck choice l).ticket = l.ticket ∧
    (applyUncheck choice l).hours = l.hours ∧ (applyUncheck choice l).subtasks = l.subtasks ∧
    (applyUncheck choice l).q_status =
      (if choice = "q" ∨ choice = "b" then "❌" else l.q_status) ∧
    (applyUncheck choice l).jira_status =
      (if choice = "j" ∨ choice = "b" then "❌" else l.jira_status) := by
  unfold applyUncheck
  by_cases h1 : choice = "q" ∨ choice = "b" <;>
    by_cases h2 : choice = "j" ∨ choice = "b" <;>
      simp [h1, h2]

/-- C10: marking a log as checked or unchecked for Q, Jira, or both replaces
only the chosen status field(s) of the selected entry (with "✅" resp. "❌");
its day, ticket, hours and subtasks, every other entry, and the list length
are unchanged. -/
theorem c10_mark_frame (logs : List LogEntry) (choice : String) (idx : Nat)
    (l : LogEntry) (hl : logs.get? idx = some l) :
    (∀ j, j ≠ idx → (markAsChecked logs choice idx).get? j = logs.get? j) ∧
    (∀ j, j ≠ idx → (markAsUnchecked logs choice idx).get? j = logs.get? j) ∧
    (markAsChecked logs choice idx).length = logs.length ∧
    (markAsUnchecked logs choice idx).length = logs.length ∧
    (markAsChecked logs choice idx).get? idx = some (applyCheck choice l) ∧
    (markAsUnchecked logs choice idx).get? idx = some (applyUncheck choice l) ∧
    ((applyCheck choice l).day = l.day ∧ (applyCheck choice l).ticket = l.ticket ∧
      (applyCheck choice l).hours = l.hours ∧ (applyCheck choice l).subtasks = l.subtasks ∧
      (applyCheck choice l).q_status =
        (if choice = "q" ∨ choice = "b" then "✅" else l.q_status) ∧
      (applyCheck choice l).jira_status =
        (if choice = "j" ∨ choice = "b" then "✅" else l.jira_status)) ∧
    ((applyUncheck choice l).day = l.day ∧ (applyUncheck choice l).ticket = l.ticket ∧
      (applyUncheck choice l).hours = l.hours ∧ (applyUncheck choice l).subtasks = l.subtasks ∧
      (applyUncheck choice l).q_status =
        (if choice = "q" ∨ choice = "b" then "❌" else l.q_status) ∧
      (applyUncheck choice l).jira_status =
        (if choice = "j" ∨ choice = "b" then "❌" else l.jira_status)) := by
  have hlt : idx < logs.length := by
    obtain ⟨h, _⟩ := List.get?_eq_some.mp hl
    exact h
  refine ⟨?_, ?_, ?_, ?_, ?_, ?_, applyCheck_fields choice l, applyUncheck_fields choice l⟩
  · intro j hj
    simp only [markAsChecked, hl]
    exact List.get?_set_ne _ _ (fun he => hj he.symm)
  · intro j hj
    simp only [markAsUnchecked, hl]
    exact List.get?_set_ne _ _ (fun he => hj he.symm)
  · simp only [markAsChecked, hl, List.length_set]
  · simp only [markAsUnchecked, hl, List.length_set]
  · simp only [markAsChecked, hl]
    exact List.get?_set_eq_of_lt _ hlt
  · simp only [markAsUnchecked, hl]
    exact List.get?_set_eq_of_lt _ hlt



/-- C10 witness: marking entry 0 of a two-entry list as checked for both
leaves entry 1 untouched and sets entry 0's statuses. -/
theorem c10_mark_frame_witness :
    [c10e1, c10e2].get? 0 = some c10e1 ∧
    (markAsChecked [c10e1, c10e2] "b" 0).get? 1 = [c10e1, c10e2].get? 1 ∧
    (markAsChecked [c10e1, c10e2] "b" 0).get? 0 = some (applyCheck "b" c10e1) ∧
    (markAsUnchecked [c10e1, c10e2] "b" 0).get? 0 = some (applyUncheck "b" c10e1) := by
  refine ⟨by decide, ?_, ?_, ?_⟩
  · exact (c10_mark_frame [c10e1, c10e2] "b" 0 c10e1 (by decide)).1 1 (by decide)
  · exact (c10_mark_frame [c10e1, c10e2] "b" 0 c10e1 (by decide)).2.2.2.2.1
  · exact (c10_mark_frame [c10e1, c10e2] "b" 0 c10e1 (by decide)).2.2.2.2.2.1


theorem lookup_upsert_self (acc : List (String × String)) (k v : String) :
    (upsert acc k v).lookup k = some v := by
  induction acc with
  | nil => simp [upsert, List.lookup]
  | cons kv rest ih =>
    obtain ⟨k2, v2⟩ := kv
    by_cases hk : k2 = k
    · subst hk
      simp [upsert, List.lookup]
    · have hbeq : (k == k2) = false := by
        simp only [beq_eq_false_iff_ne, ne_eq]
        exact fun he => hk he.symm
      simp [upsert, hk, List.lookup, hbeq, ih]

theorem lookup_upsert_ne (acc : List (String × String)) (k2 v k : String) (h : k2 ≠ k) :
    (upsert acc k2 v).lookup k = acc.lookup k := by
  have hbeq : (k == k2) = false := by
    simp only [beq_eq_false_iff_ne, ne_eq]
    exact fun he => h he.symm
  induction acc with
  | nil => simp [upsert, List.lookup, hbeq]
  | cons kv rest ih =>
    obtain ⟨k3, v3⟩ := kv
    by_cases hk : k3 = k2
    · subst hk
      simp [upsert, List.lookup, hbeq]
    · cases hbeq3 : (k == k3) with
      | true => simp [upsert, hk, List.lookup, hbeq3]
      | false => simp [upsert, hk, List.lookup, hbeq3, ih]

/-- Effect of one `qi_logs` loop iteration on the binding of key `k`. -/
theorem lookup_step (p k : String) (acc : List (String × String)) (log : LogEntry) :
    (if pyStartsWith log.ticket p then
      let k2 := ticketKey log.ticket
      if containsQ log.ticket || (acc.lookup k2).isNone then upsert acc k2 log.ticket
      else acc
    else acc).lookup k =
    (if keyMatches p k log && (containsQ log.ticket || (acc.lookup k).isNone) then
      some log.ticket
    else acc.lookup k) := by
  show (if pyStartsWith log.ticket p then
      if containsQ log.ticket || (acc.lookup (ticketKey log.ticket)).isNone then
        upsert acc (ticketKey log.ticket) log.ticket
      else acc
    else acc).lookup k = _
  by_cases hsw : pyStartsWith log.ticket p
  · by_cases hkey : ticketKey log.ticket = k
    · subst hkey
      have hkm : keyMatches p (ticketKey log.ticket) log = true := by
        simp [keyMatches, hsw]
      by_cases hcq : (containsQ log.ticket ||
          ((acc.lookup (ticketKey log.ticket)).isNone : Bool)) = true
      · rw [if_pos hsw, if_pos hcq, lookup_upsert_self,
          if_pos (by rw [hkm, Bool.true_and]; exact hcq)]
      · rw [if_pos hsw, if_neg hcq,
          if_neg (by rw [hkm, Bool.true_and]; exact hcq)]
    · have hkm : keyMatches p k log = false := by
        simp [keyMatches, hkey]
      rw [if_pos hsw]
      by_cases hcq : (containsQ log.ticket ||
          ((acc.lookup (ticketKey log.ticket)).isNone : Bool)) = true
      · rw [if_pos hcq, lookup_upsert_ne _ _ _ _ hkey, if_neg (by simp [hkm])]
      · rw [if_neg hcq, if_neg (by simp [hkm])]
  · have hkm : keyMatches p k log = false := by
      simp [keyMatches, hsw]
    rw [if_neg hsw, if_neg (by rw [hkm, Bool.false_and]; simp)]

/-- Folding the `qi_logs` loop from any dictionary: the binding of `k` is
computed by `qiKeptFrom` from its current binding. -/
theorem qiLogsFold_lookup_go (p k : String) (logs : List LogEntry) :
    ∀ acc : List (String × String),
      (logs.foldl (fun acc log =>
        if pyStartsWith log.ticket p then
          let k2 := ticketKey log.ticket
          if containsQ log.ticket || (acc.lookup k2).isNone then upsert acc k2 log.ticket
          else acc
        else acc) acc).lookup k = qiKeptFrom p k logs (acc.lookup k) := by
  induction logs with
  | nil => intro acc; rfl
  | cons log rest ih =>
    intro acc
    rw [List.foldl_cons, qiKeptFrom, ih, lookup_step]
    by_cases hc : (keyMatches p k log &&
        (containsQ log.ticket || ((acc.lookup k).isNone : Bool))) = true
    · rw [if_pos hc, if_pos hc]
    · rw [if_neg hc, if_neg hc]

theorem option_map_or {α β : Type} (f : α → β) (a b : Option α) :
    (a.or b).map f = (a.map f).or (b.map f) := by
  cases a <;> simp

theorem getLast?_cons_or {α : Type} (x : α) (l : List α) :
    (x :: l).getLast? = l.getLast?.or (some x) := by
  induction l generalizing x with
  | nil => simp
  | cons y ys ih =>
    rw [List.getLast?_cons_cons, ih y, Option.or_assoc]
    simp

/-- Closed form of the single-key fold: the last `[Q]`-marked match wins,
else the current binding, else the first match. -/
theorem qiKeptFrom_closed (p k : String) (logs : List LogEntry) :
    ∀ cur, qiKeptFrom p k logs cur =
      ((logs.filter (fun l => keyMatches p k l && containsQ l.ticket)).getLast?.map
        (fun l => l.ticket)).or
      (cur.or (((logs.filter (keyMatches p k)).head?).map (fun l => l.ticket))) := by
  induction logs with
  | nil => intro cur; simp [qiKeptFrom]
  | cons log rest ih =>
    intro cur
    rw [qiKeptFrom]
    by_cases hkm : keyMatches p k log = true
    · by_cases hq : containsQ log.ticket = true
      · rw [if_pos (by rw [hkm, hq]; rfl)]
        rw [ih (some log.ticket)]
        rw [List.filter_cons_of_pos (by rw [hkm, hq]; rfl),
          List.filter_cons_of_pos hkm]
        rw [getLast?_cons_or, option_map_or, Option.or_assoc]
        simp
      · cases cur with
        | none =>
          rw [if_pos (by rw [hkm]; simp)]
          rw [ih (some log.ticket)]
          rw [List.filter_cons_of_neg (by simp [hq]), List.filter_cons_of_pos hkm]
          simp
        | some c =>
          rw [if_neg (by simp [hkm, hq])]
          rw [ih (some c)]
          rw [List.filter_cons_of_neg (by simp [hq]), List.filter_cons_of_pos hkm]
          simp
    · rw [if_neg (by simp [hkm])]
      rw [ih cur, List.filter_cons_of_neg (by simp [hkm]),
        List.filter_cons_of_neg (by simp [hkm])]

/-- C9: for every log list and prefix, the `qi_logs` dict binds each
extracted key (token before the first space or bracket) of a prefix-matching
ticket to the last such ticket containing the `'[Q]'` marker, and otherwise
to the first such ticket seen — so a `'[Q]'`-marked variant wins over the
first-seen rule; in particular `["QI-1 foo", "QI-1 [Q] bar"]` with prefix
`"QI-"` keeps `"QI-1 [Q] bar"`. -/
theorem c9_distinct_tickets (p k : String) (logs : List LogEntry) :
    (qiLogsFold p logs).lookup k =
      ((lastQTicket p k logs).or (firstMatchTicket p k logs)) ∧
    qiLogsFold "QI-" [⟨7, "QI-1 foo", "1h", "❌", "❌", []⟩,
      ⟨7, "QI-1 [Q] bar", "2h", "❌", "❌", []⟩] = [("QI-1", "QI-1 [Q] bar")] := by
  constructor
  · calc (qiLogsFold p logs).lookup k
        = qiKeptFrom p k logs none := qiLogsFold_lookup_go p k logs []
      _ = _ := by
          rw [qiKeptFrom_closed]
          simp [lastQTicket, firstMatchTicket]
  · decide


/-- Integer range membership. -/
theorem mem_rangeInt (lo hi i : Int) : i ∈ rangeInt lo hi ↔ lo ≤ i ∧ i ≤ hi := by
  constructor
  · intro hmem
    obtain ⟨n, hn, he⟩ := List.mem_map.mp hmem
    rw [List.mem_range] at hn
    omega
  · intro h
    apply List.mem_map.mpr
    exact ⟨(i - lo).toNat, List.mem_range.mpr (by omega), by omega⟩

/-- C5 counterexample: with the default configuration and a single log in
sprint 2 (30 days after the epoch), the history view shows sprints -2..2,
not just sprint 2: the smallest sprint index covering the logs is 2, but the
code negates `abs((earliest - epoch).days // 14)` and so starts at -2,
showing empty past sprints below every log. -/
theorem c5_counterexample :
    Int.fdiv (c5Log.day - historyEpoch) (2 * 7) = 2 ∧
    viewSprintHistoryIndices ⟨historyEpoch, 2⟩ [c5Log] (historyEpoch + 30) 0 =
      [-2, -1, 0, 1, 2] := by decide

/-- C5 (amended): for a nonempty log list the history view lists exactly the
sprint indices `i` with `-abs(fdiv(earliest - 2025-04-30, 14)) ≤ i ≤
fdiv(latest - 2025-04-30, 14)` — the hardcoded epoch and 14-day step, not the
configured ones — such that sprint `i` (dated via the configured settings)
contains a log or ends strictly before `now`. -/
theorem c5_history_amended (cfg : SprintConfig) (logs : List LogEntry)
    (nowDay nowSec : Int) (hne : logs ≠ []) (i : Int) :
    i ∈ viewSprintHistoryIndices cfg logs nowDay nowSec ↔
      (-|Int.fdiv (pyMin (logs.map (fun l => l.day)) - historyEpoch) 14| ≤ i ∧
       i ≤ Int.fdiv (pyMax (logs.map (fun l => l.day)) - historyEpoch) 14 ∧
       ((∃ l ∈ logs, (getSprintDates cfg (some i) nowDay nowSec).1 ≤ l.day ∧
          l.day ≤ (getSprintDates cfg (some i) nowDay nowSec).2) ∨
        (getSprintDates cfg (some i) nowDay nowSec).2 * 86400 <
          nowDay * 86400 + nowSec)) := by
  unfold viewSprintHistoryIndices
  rw [if_neg (by simpa [List.isEmpty_iff] using hne)]
  rw [List.mem_filter, mem_rangeInt]
  simp only [List.any_eq_true, Bool.or_eq_true, Bool.and_eq_true, decide_eq_true_eq]
  constructor
  · rintro ⟨hrange, hcond⟩
    refine ⟨hrange.1, hrange.2, ?_⟩
    rcases hcond with ⟨l, hl, ha, hb⟩ | hlt
    · exact Or.inl ⟨l, hl, ha, hb⟩
    · exact Or.inr hlt
  · rintro ⟨h1, h2, hcond⟩
    refine ⟨⟨h1, h2⟩, ?_⟩
    rcases hcond with ⟨l, hl, ha, hb⟩ | hlt
    · exact Or.inl ⟨l, hl, ha, hb⟩
    · exact Or.inr hlt

/-- C5 witness: sprint index 2 is listed for the single-log history. -/
theorem c5_history_amended_witness :
    (2 : Int) ∈ viewSprintHistoryIndices ⟨historyEpoch, 2⟩ [c5Log] (historyEpoch + 30) 0 :=
  (c5_history_amended ⟨historyEpoch, 2⟩ [c5Log] (historyEpoch + 30) 0 (by decide) 2).mpr
    (by decide)

theorem insertDesc_perm (x : Int) (l : List Int) : List.Perm (insertDesc x l) (x :: l) := by
  induction l with
  | nil => rfl
  | cons y ys ih =>
    rw [insertDesc]
    by_cases h : x ≥ y
    · rw [if_pos h]
    · rw [if_neg h]
      exact List.Perm.trans (List.Perm.cons y ih) (List.Perm.swap x y ys)

theorem sortDesc_perm (l : List Int) : List.Perm (sortDesc l) l := by
  induction l with
  | nil => rfl
  | cons x xs ih =>
    exact List.Perm.trans (insertDesc_perm x (sortDesc xs)) (List.Perm.cons x ih)

theorem insertDesc_sorted (x : Int) (l : List Int) (h : l.Sorted (· ≥ ·)) :
    (insertDesc x l).Sorted (· ≥ ·) := by
  induction l with
  | nil => simp [insertDesc]
  | cons y ys ih =>
    rw [List.sorted_cons] at h
    obtain ⟨hy, hys⟩ := h
    rw [insertDesc]
    by_cases hxy : x ≥ y
    · rw [if_pos hxy, List.sorted_cons]
      refine ⟨?_, List.sorted_cons.mpr ⟨hy, hys⟩⟩
      intro b hb
      rcases List.mem_cons.mp hb with rfl | hb
      · exact hxy
      · exact le_trans (hy b hb) hxy
    · rw [if_neg hxy, List.sorted_cons]
      refine ⟨?_, ih hys⟩
      intro b hb
      have hm : b ∈ x :: ys := (insertDesc_perm x ys).mem_iff.mp hb
      rcases List.mem_cons.mp hm with rfl | hb2
      · omega
      · exact hy b hb2

theorem sortDesc_sorted (l : List Int) : (sortDesc l).Sorted (· ≥ ·) := by
  induction l with
  | nil => simp [sortDesc]
  | cons x xs ih => exact insertDesc_sorted x (sortDesc xs) ih

theorem sortDesc_sorted_gt (l : List Int) (h : l.Nodup) : (sortDesc l).Sorted (· > ·) := by
  have hnd : (sortDesc l).Nodup := ((sortDesc_perm l).nodup_iff).mpr h
  have hs := sortDesc_sorted l
  have := List.Pairwise.and hs hnd
  exact this.imp (fun hab => lt_of_le_of_ne hab.1 (fun he => hab.2 he.symm))

theorem mem_take_sorted_gt : ∀ (l : List Int), l.Sorted (· > ·) → ∀ (k : Nat) (d : Int),
    d ∈ l.take k ↔ d ∈ l ∧ (l.countP (fun e => decide (d < e))) < k := by
  intro l
  induction l with
  | nil => intro _ k d; simp
  | cons x xs ih =>
    intro hs k d
    rw [List.sorted_cons] at hs
    obtain ⟨hx, hxs⟩ := hs
    cases k with
    | zero => simp
    | succ k =>
      rw [List.take_succ_cons]
      by_cases hdx : d = x
      · subst hdx
        constructor
        · intro _
          refine ⟨List.mem_cons_self _ _, ?_⟩
          rw [List.countP_cons]
          have hz : List.countP (fun e => decide (d < e)) xs = 0 := by
            rw [List.countP_eq_zero]
            intro a ha
            simp only [decide_eq_true_eq]
            exact not_lt.mpr (le_of_lt (hx a ha))
          simp [hz]
        · intro _
          exact List.mem_cons_self _ _
      · constructor
        · intro hmem
          rcases List.mem_cons.mp hmem with rfl | hmem2
          · exact absurd rfl hdx
          · obtain ⟨hin, hcnt⟩ := (ih hxs k d).mp hmem2
            have hdlt : d < x := hx d hin
            refine ⟨List.mem_cons_of_mem x hin, ?_⟩
            rw [List.countP_cons]
            simp [hdlt]
            omega
        · rintro ⟨hmem, hcnt⟩
          rcases List.mem_cons.mp hmem with rfl | hin
          · exact absurd rfl hdx
          · have hdlt : d < x := hx d hin
            rw [List.countP_cons] at hcnt
            simp [hdlt] at hcnt
            exact List.mem_cons_of_mem x ((ih hxs k d).mpr ⟨hin, by omega⟩)

theorem le_foldl_max : ∀ (ys : List Int) (a : Int),
    a ≤ ys.foldl max a ∧ ∀ x ∈ ys, x ≤ ys.foldl max a := by
  intro ys
  induction ys with
  | nil => intro a; simp
  | cons y ys ih =>
    intro a
    rw [List.foldl_cons]
    refine ⟨le_trans (le_max_left a y) (ih (max a y)).1, ?_⟩
    intro x hx
    rcases List.mem_cons.mp hx with rfl | hx2
    · exact le_trans (le_max_right a x) (ih (max a x)).1
    · exact (ih (max a y)).2 x hx2

theorem le_pyMax (l : List Int) (x : Int) (hx : x ∈ l) : x ≤ pyMax l := by
  cases l with
  | nil => simp at hx
  | cons y ys =>
    rcases List.mem_cons.mp hx with rfl | hx2
    · exact (le_foldl_max ys x).1
    · exact (le_foldl_max ys y).2 x hx2

/-- C7: the `workdays` list is the distinct weekday dates of the trailing
window sorted strictly descending with at most the 10 most recent kept — a
date is selected iff it is a window weekday date with fewer than 10 greater
window weekday dates — and both bar charts iterate over exactly this list in
this order. -/
theorem c7_workdays_charts (logs : List LogEntry) (nowDay nowSec : Int) :
    (workdaysOf logs nowDay nowSec).Sorted (· > ·) ∧
    (workdaysOf logs nowDay nowSec).length ≤ 10 ∧
    (∀ d : Int, d ∈ workdaysOf logs nowDay nowSec ↔
      d ∈ windowWeekdayDates logs nowDay nowSec ∧
      (windowWeekdayDates logs nowDay nowSec).countP (fun e => decide (d < e)) < 10) ∧
    (hoursChart logs nowDay nowSec).map Prod.fst = workdaysOf logs nowDay nowSec ∧
    (logsChart logs nowDay nowSec).map Prod.fst = workdaysOf logs nowDay nowSec := by
  have hnd : (windowWeekdayDates logs nowDay nowSec).Nodup := List.nodup_dedup _
  have hsg : (sortDesc (windowWeekdayDates logs nowDay nowSec)).Sorted (· > ·) :=
    sortDesc_sorted_gt _ hnd
  refine ⟨?_, ?_, ?_, ?_, ?_⟩
  · exact List.Pairwise.sublist (List.take_sublist 10 _) hsg
  · exact List.length_take_le 10 _
  · intro d
    rw [workdaysOf, mem_take_sorted_gt _ hsg 10 d,
      (sortDesc_perm _).mem_iff, (sortDesc_perm _).countP_eq]
  · rw [hoursChart, List.map_map]
    exact map_id_of_mem _ _ (fun x _ => rfl)
  · rw [logsChart, List.map_map]
    exact map_id_of_mem _ _ (fun x _ => rfl)

/-- A selected workday's date is among the distinct dates of the re-filtered
window. -/
theorem mem_workdays_day_mem (logs : List LogEntry) (nowDay nowSec : Int) (d : Int)
    (hd : d ∈ workdaysOf logs nowDay nowSec) :
    d ∈ ((recent10 logs nowDay nowSec).map (fun l => l.day)).dedup := by
  have hW : d ∈ windowWeekdayDates logs nowDay nowSec :=
    (sortDesc_perm _).mem_iff.mp (List.take_subset _ _ hd)
  rw [windowWeekdayDates, List.mem_dedup] at hW
  obtain hW2 := List.mem_filter.mp hW
  obtain ⟨l0, hl0, hday⟩ := List.mem_map.mp hW2.1
  rw [List.mem_dedup, List.mem_map]
  refine ⟨l0, ?_, hday⟩
  rw [recent10, List.mem_filter]
  refine ⟨hl0, ?_⟩
  rw [decide_eq_true_eq, hday]
  exact hd

/-- A selected workday's minute total is bounded by `max_hours`. -/
theorem minutesOn_le_maxHours (logs : List LogEntry) (nowDay nowSec : Int) (d : Int)
    (hd : d ∈ workdaysOf logs nowDay nowSec) :
    minutesOn (recent10 logs nowDay nowSec) d ≤ maxHoursOf logs nowDay nowSec := by
  unfold maxHoursOf
  apply le_pyMax
  exact List.mem_map.mpr ⟨d, mem_workdays_day_mem logs nowDay nowSec d hd, rfl⟩

/-- A selected workday's log count is bounded by `max_logs`. -/
theorem countOn_le_maxLogs (logs : List LogEntry) (nowDay nowSec : Int) (d : Int)
    (hd : d ∈ workdaysOf logs nowDay nowSec) :
    countOn (recent10 logs nowDay nowSec) d ≤ maxLogsOf logs nowDay nowSec := by
  unfold maxLogsOf
  apply le_pyMax
  exact List.mem_map.mpr ⟨d, mem_workdays_day_mem logs nowDay nowSec d hd, rfl⟩



/-- C6 counterexample: day 1 totals -1 minute (duration text "-1m"), day 0
totals 3, so `max_hours = 3`; the bar for day 1 has length
`int(-1/3 * 50) = -16`, but `floor(-1/3 * 50) = -17` — Python `int()`
truncates toward zero, so the claim's floor formula fails on negative
day totals. -/
theorem c6_counterexample :
    hoursChart [c6e1, c6e2] 1 0 = [(1, -16), (0, 50)] ∧
    minutesOn (recent10 [c6e1, c6e2] 1 0) 1 = -1 ∧
    maxHoursOf [c6e1, c6e2] 1 0 = 3 ∧
    Int.fdiv ((-1) * 50) 3 = -17 ∧
    ((-16 : Int) ≠ -17) := by decide

/-- C6 (amended): in both charts a bar's length is
`trunc(value / max * 50)` when `max > 0` and `0` when `max = 0` (the
division is guarded, never a fault); this equals `floor(value / max * 50)`
whenever the value is nonnegative — always for the counts chart, and for the
minutes chart unless a day total is negative (possible via duration texts
like `"-1m"`), in which case truncation toward zero applies instead. -/
theorem c6_chart_amended (logs : List LogEntry) (nowDay nowSec : Int) (d b : Int) :
    ((d, b) ∈ hoursChart logs nowDay nowSec →
      b = barLen (minutesOn (recent10 logs nowDay nowSec) d)
        (maxHoursOf logs nowDay nowSec) ∧
      (maxHoursOf logs nowDay nowSec = 0 → b = 0) ∧
      (0 ≤ minutesOn (recent10 logs nowDay nowSec) d →
        b = Int.fdiv (minutesOn (recent10 logs nowDay nowSec) d * 50)
          (maxHoursOf logs nowDay nowSec))) ∧
    ((d, b) ∈ logsChart logs nowDay nowSec →
      b = Int.fdiv (countOn (recent10 logs nowDay nowSec) d * 50)
        (maxLogsOf logs nowDay nowSec)) := by
  constructor
  · intro hmem
    obtain ⟨d2, hd2, heq⟩ := List.mem_map.mp hmem
    rw [Prod.mk.injEq] at heq
    obtain ⟨rfl, rfl⟩ := heq
    refine ⟨rfl, ?_, ?_⟩
    · intro h0
      rw [barLen, h0]
      simp
    · intro hv
      have hvm := minutesOn_le_maxHours logs nowDay nowSec d2 hd2
      rw [barLen]
      by_cases hpos : 0 < maxHoursOf logs nowDay nowSec
      · rw [if_pos hpos, ← Int.fdiv_eq_tdiv (by positivity) (le_of_lt hpos)]
      · rw [if_neg hpos]
        have h0 : maxHoursOf logs nowDay nowSec = 0 :=
          le_antisymm (not_lt.mp hpos) (le_trans hv hvm)
        rw [h0, Int.fdiv_zero]
  · intro hmem
    obtain ⟨d2, hd2, heq⟩ := List.mem_map.mp hmem
    rw [Prod.mk.injEq] at heq
    obtain ⟨rfl, rfl⟩ := heq
    have hv : (0 : Int) ≤ countOn (recent10 logs nowDay nowSec) d2 := by
      unfold countOn
      positivity
    have hvm := countOn_le_maxLogs logs nowDay nowSec d2 hd2
    rw [barLen]
    by_cases hpos : 0 < maxLogsOf logs nowDay nowSec
    · rw [if_pos hpos, ← Int.fdiv_eq_tdiv (by positivity) (le_of_lt hpos)]
    · rw [if_neg hpos]
      have h0 : maxLogsOf logs nowDay nowSec = 0 :=
        le_antisymm (not_lt.mp hpos) (le_trans hv hvm)
      rw [h0, Int.fdiv_zero]

/-- C6 witness: the amended characterization applied to the counterexample
chart: the day-0 bar (nonnegative total) equals the floor formula, and on a
window where every duration is "ongoing" the max is 0 and the bar is 0. -/
theorem c6_chart_amended_witness :
    ((1 : Int), (-16 : Int)) ∈ hoursChart [c6e1, c6e2] 1 0 ∧
    ((-16 : Int) = barLen (minutesOn (recent10 [c6e1, c6e2] 1 0) 1)
      (maxHoursOf [c6e1, c6e2] 1 0)) ∧
    ((0 : Int), (50 : Int)) ∈ hoursChart [c6e1, c6e2] 1 0 ∧
    ((50 : Int) = Int.fdiv (minutesOn (recent10 [c6e1, c6e2] 1 0) 0 * 50)
      (maxHoursOf [c6e1, c6e2] 1 0)) := by
  refine ⟨by decide, ?_, by decide, ?_⟩
  · exact ((c6_chart_amended [c6e1, c6e2] 1 0 1 (-16)).1 (by decide)).1
  · exact ((c6_chart_amended [c6e1, c6e2] 1 0 0 50).1 (by decide)).2.2 (by decide)
